import Mathlib

/-!
# Verification of the Moments ML-service label pipeline

Shallow embedding of the object-label deduplicate/rank pipeline of
`moments/ml_service.py` (`detect_objects`, `generate_alternative_text`,
`get_ml_service`) and of the two migration scripts
(`migrate_alt_text.py`, `migrate_detected_objects.py`).

Confidences are Python floats in the source; they are modelled as
rationals (`ℚ`).  Python `round(x, 2)` is modelled as rounding `x * 100`
to the nearest integer and dividing by 100 (the spec states that the
half-to-even/half-up distinction is immaterial at this precision).
-/

namespace Moments

/-- A detection record `{'name': ..., 'confidence': ...}` as built in
`detect_objects` (ml_service.py lines 146-149); also the shape of the
entries of the final ranked list. -/
structure Detection where
  name : String
  confidence : ℚ
deriving Repr, DecidableEq

/-- Python `round(q, 2)`: round to 2 decimal places. -/
def roundTo2 (q : ℚ) : ℚ := (round (q * 100) : ℤ) / 100

/-- The hardcoded confidence threshold of ml_service.py line 145. -/
def threshold : ℚ := 1/2

/-- Lines 144-149 of ml_service.py: keep only detections whose original
confidence is `> 0.5`, and store each survivor with its confidence
rounded to 2 decimal places. -/
def filterRound (l : List Detection) : List Detection :=
  (l.filter (fun d => decide (threshold < d.confidence))).map
    (fun d => { name := d.name, confidence := roundTo2 d.confidence })

/-- One iteration of the dedup loop of ml_service.py lines 153-156 over the
insertion-ordered dict `unique_objects` (modelled as a list of entries in
insertion order): `if name not in unique_objects or obj['confidence'] >
unique_objects[name]['confidence']: unique_objects[name] = obj`.
Assigning to an existing key keeps the entry's position. -/
def dedupStep (acc : List Detection) (obj : Detection) : List Detection :=
  match acc.find? (fun x => x.name == obj.name) with
  | none => acc ++ [obj]
  | some e =>
      if e.confidence < obj.confidence then
        acc.map (fun x => if x.name == obj.name then obj else x)
      else acc

/-- Lines 152-158 of ml_service.py: the whole dedup loop followed by
`list(unique_objects.values())` (which yields entries in insertion order). -/
def dedup (l : List Detection) : List Detection :=
  l.foldl dedupStep []

/-- Line 159 of ml_service.py:
`final_objects.sort(key=lambda x: x['confidence'], reverse=True)` —
a stable sort, descending by confidence. -/
def sortDesc (l : List Detection) : List Detection :=
  l.mergeSort (fun a b => decide (b.confidence ≤ a.confidence))

/-- The pure filter/round/dedup/sort pipeline of ml_service.py
lines 144-159, from the raw detections to `final_objects`. -/
def rankedLabels (l : List Detection) : List Detection :=
  sortDesc (dedup (filterRound l))

/-- A single element of `analysis.objects` as probed by ml_service.py
lines 131-142: each recognized attribute is present (`some`) or absent
(`none`), reflecting the `hasattr`/`getattr` duck typing. -/
structure AzureObject where
  object : Option String
  object_property : Option String
  name : Option String
  label : Option String
  confidence : Option ℚ
deriving Repr, DecidableEq

/-- Lines 131-142 of ml_service.py: attribute probing that produces the
`(object_name, confidence)` pair for one backend object.
Branch 1 fires when both `object` and `confidence` exist; branch 2 when
both `object_property` and `confidence` exist; otherwise `name`, then
`label`, then the literal `'unknown'` supply the name, and a missing
`confidence` defaults to `0.0`. -/
def extractDetection (obj : AzureObject) : Detection :=
  match obj.object, obj.confidence with
  | some o, some c => ⟨o, c⟩
  | _, _ =>
    match obj.object_property, obj.confidence with
    | some op, some c => ⟨op, c⟩
    | _, _ =>
      let n :=
        match obj.name with
        | some n => n
        | none =>
          match obj.label with
          | some lb => lb
          | none => "unknown"
      let c :=
        match obj.confidence with
        | some c => c
        | none => 0
      ⟨n, c⟩

/-- The Azure analysis response as consumed by line 127 of ml_service.py:
`objects` may be absent or present.  (An empty present list and an absent
attribute both skip the extraction loop, since an empty list is falsy.) -/
structure AnalysisResult where
  objects : Option (List AzureObject)

/-- `analysis.objects` as read by lines 127-131 of ml_service.py: an
absent attribute and a falsy (empty) list both leave `detected_objects`
empty, so both are modelled as the empty object list. -/
def rawObjects (analysis : AnalysisResult) : List AzureObject :=
  match analysis.objects with
  | none => []
  | some objs => objs

/-- `', '.join` as used inside `json.dumps` for array elements. -/
def joinSep (sep : String) : List String → String
  | [] => ""
  | [s] => s
  | s :: rest => s ++ sep ++ joinSep sep rest

/-- `json.dumps` of one entry, field order `name`, `confidence`
(ml_service.py lines 146-149, 162). -/
def labelJson (d : Detection) : String :=
  "\x7b\"name\": \"" ++ d.name ++ "\", \"confidence\": " ++ toString d.confidence ++ "\x7d"

/-- `json.dumps(final_objects)` (ml_service.py line 162). -/
def json_dumps (l : List Detection) : String :=
  "[" ++ joinSep ", " (l.map labelJson) ++ "]"

/-- `detect_objects` of ml_service.py (lines 102-171), from the point the
backend is consulted.  `azureReady` models line 107's
`AZURE_AVAILABLE and self.azure_client`; `call` models the `try` block's
file read plus `analyze_image_in_stream` call, which either raises
(`Except.error`, caught by line 169's `except Exception` and converted to
`None`) or returns an analysis. -/
def detect_objects (azureReady : Bool) (call : Except String AnalysisResult) :
    Option String :=
  if azureReady = false then none
  else
    match call with
    | .error _ => none
    | .ok analysis =>
        let final := rankedLabels ((rawObjects analysis).map extractDetection)
        if final.isEmpty then none else some (json_dumps final)

/-- `generate_alternative_text` of ml_service.py (lines 81-100).
`mlReady` models line 85's `ML_AVAILABLE and self.caption_pipeline`;
`call` models the `try` block's image open plus captioning call, which
either raises (`Except.error`, caught by line 98 and converted to `None`)
or returns the list of generated texts; a nonempty result yields the
first text stripped, an empty one yields `None`. -/
def generate_alternative_text (mlReady : Bool) (call : Except String (List String)) :
    Option String :=
  if mlReady = false then none
  else
    match call with
    | .error _ => none
    | .ok result =>
        match result with
        | [] => none
        | t :: _ => some t.trim

/-- The process-wide state around `get_ml_service` (ml_service.py lines
180-187): the module-level `_ml_service` handle (instances are modelled
by numeric ids) together with a count of `MLImageService()` constructions
performed so far. -/
structure ServiceState where
  service : Option Nat
  constructions : Nat
deriving Repr, DecidableEq

/-- `get_ml_service` (ml_service.py lines 183-187): construct and store an
instance when the handle is `None`, otherwise return the stored one. -/
def get_ml_service : ServiceState → Nat × ServiceState
  | ⟨none, k⟩ => (k, ⟨some k, k + 1⟩)
  | ⟨some s, k⟩ => (s, ⟨some s, k⟩)

/-- `migrate_alt_text` (migrate_alt_text.py lines 19-44) acting on the
`photo` table's column list; the returned flag records whether the
`ALTER TABLE` statement was executed.  The guard (lines 26-31) returns
early when `'alt_text'` is already among the columns. -/
def migrate_alt_text (columns : List String) : List String × Bool :=
  if "alt_text" ∈ columns then (columns, false)
  else (columns ++ ["alt_text"], true)

/-- `migrate_detected_objects` (migrate_detected_objects.py lines 27-56)
acting on the `photo` table's column list; the flag records whether the
`ALTER TABLE` statement was executed.  The guard (lines 33-43) counts the
`pragma_table_info` rows named `'detected_objects'` and returns early
when the count is positive. -/
def migrate_detected_objects (columns : List String) : List String × Bool :=
  if 0 < columns.countP (fun c => c == "detected_objects") then (columns, false)
  else (columns ++ ["detected_objects"], true)

/-- The comparison of ml_service.py line 155: the stored entry `a` is
replaced by the newcomer `b` only when `b`'s confidence is strictly
higher, so on equal confidences the earlier entry is kept. -/
def keepBetter (a b : Detection) : Detection :=
  if a.confidence < b.confidence then b else a

/-- Spec-side description of the retained entry of one name group
(spec §4.1 Deduplication): scan the group in order and keep the current
entry unless a strictly higher confidence appears, so the highest
confidence wins and on ties the first-encountered entry is retained. -/
def specGroupRetained : List Detection → Option Detection
  | [] => none
  | d :: rest => some (rest.foldl keepBetter d)

/-- Accumulator form of `specGroupRetained`, used to relate it to the
dedup loop. -/
def retainStep (a : Option Detection) (d : Detection) : Option Detection :=
  match a with
  | none => some d
  | some e => some (keepBetter e d)

/-! ## Properties of the dedup loop -/

/-- In-place replacement: when some entry of `acc` matches `d.name`, the
replacement map puts `d` at the position of the first match. -/
lemma find?_map_replace (d : Detection) :
    ∀ (acc : List Detection) (e : Detection),
      acc.find? (fun x => x.name == d.name) = some e →
      (acc.map (fun x => if x.name == d.name then d else x)).find?
        (fun x => x.name == d.name) = some d := by
  intro acc
  induction acc with
  | nil => intro e h; simp at h
  | cons x rest ih =>
      intro e h
      by_cases hx : x.name = d.name
      · simp [hx]
      · have hx' : (x.name == d.name) = false := by simp [hx]
        simp only [List.map_cons, hx', Bool.false_eq_true, if_false] at h ⊢
        rw [List.find?_cons_of_neg _ (by simp [hx])] at h
        rw [List.find?_cons_of_neg _ (by simp [hx])]
        exact ih e h

/-- In-place replacement does not affect lookups under any other name. -/
lemma find?_map_replace_ne (d : Detection) (n : String) (hn : d.name ≠ n) :
    ∀ (acc : List Detection),
      (acc.map (fun x => if x.name == d.name then d else x)).find?
        (fun x => x.name == n) = acc.find? (fun x => x.name == n) := by
  intro acc
  induction acc with
  | nil => simp
  | cons x rest ih =>
      by_cases hx : x.name = d.name
      · have hxn : x.name ≠ n := hx ▸ hn
        simp only [List.map_cons, hx, beq_self_eq_true, if_true]
        rw [List.find?_cons_of_neg _ (by simp [hn]), List.find?_cons_of_neg _ (by simp [hxn])]
        exact ih
      · have hx' : (x.name == d.name) = false := by simp [hx]
        simp only [List.map_cons, hx', Bool.false_eq_true, if_false]
        by_cases hxn : x.name = n
        · rw [List.find?_cons_of_pos _ (by simp [hxn]), List.find?_cons_of_pos _ (by simp [hxn])]
        · rw [List.find?_cons_of_neg _ (by simp [hxn]), List.find?_cons_of_neg _ (by simp [hxn])]
          exact ih

/-- Effect of one dedup iteration on the entry stored under the incoming
detection's own name: it is exactly a `retainStep`. -/
lemma find?_dedupStep_of_name_eq (acc : List Detection) (d : Detection) (n : String)
    (h : d.name = n) :
    (dedupStep acc d).find? (fun x => x.name == n) =
      retainStep (acc.find? (fun x => x.name == n)) d := by
  subst h
  unfold dedupStep
  cases hf : acc.find? (fun x => x.name == d.name) with
  | none => simp [retainStep, List.find?_append, hf]
  | some e =>
      by_cases hc : e.confidence < d.confidence
      · simp only [if_pos hc]
        rw [find?_map_replace d acc e hf]
        simp [retainStep, keepBetter, hc]
      · simp only [if_neg hc]
        rw [hf]
        simp [retainStep, keepBetter, hc]

/-- One dedup iteration leaves entries under every other name untouched. -/
lemma find?_dedupStep_of_name_ne (acc : List Detection) (d : Detection) (n : String)
    (h : d.name ≠ n) :
    (dedupStep acc d).find? (fun x => x.name == n) =
      acc.find? (fun x => x.name == n) := by
  unfold dedupStep
  cases hf : acc.find? (fun x => x.name == d.name) with
  | none => simp [List.find?_append, h]
  | some e =>
      by_cases hc : e.confidence < d.confidence
      · simp only [if_pos hc]
        exact find?_map_replace_ne d n h acc
      · simp [hc]

/-- The dedup fold, started from any accumulator, stores under each name
the `retainStep`-fold of the matching input entries. -/
lemma find?_foldl_dedupStep (n : String) :
    ∀ (m acc : List Detection),
      (m.foldl dedupStep acc).find? (fun x => x.name == n) =
        (m.filter (fun x => x.name == n)).foldl retainStep
          (acc.find? (fun x => x.name == n)) := by
  intro m
  induction m with
  | nil => intro acc; rfl
  | cons d m ih =>
      intro acc
      by_cases hd : d.name = n
      · rw [List.foldl_cons, ih, List.filter_cons_of_pos (by simp [hd]),
          List.foldl_cons, find?_dedupStep_of_name_eq acc d n hd]
      · rw [List.foldl_cons, ih, List.filter_cons_of_neg (by simp [hd]),
          find?_dedupStep_of_name_ne acc d n hd]

/-- The `retainStep` fold from `none` is the spec's per-group retention. -/
lemma foldl_retainStep_none (g : List Detection) :
    g.foldl retainStep none = specGroupRetained g := by
  cases g with
  | nil => rfl
  | cons d rest =>
      have : ∀ (rest : List Detection) (a : Detection),
          rest.foldl retainStep (some a) = some (rest.foldl keepBetter a) := by
        intro rest
        induction rest with
        | nil => intro a; rfl
        | cons b rest ih => intro a; rw [List.foldl_cons, List.foldl_cons]; exact ih _
      rw [List.foldl_cons]
      exact this rest d

/-- The dedup loop stores under each name exactly the spec-retained entry
of that name's group. -/
lemma dedup_find? (m : List Detection) (n : String) :
    (dedup m).find? (fun x => x.name == n) =
      specGroupRetained (m.filter (fun x => x.name == n)) := by
  unfold dedup
  rw [find?_foldl_dedupStep n m []]
  simp only [List.find?_nil]
  exact foldl_retainStep_none _

/-- One dedup iteration preserves distinctness of the stored names. -/
lemma nodup_names_dedupStep (acc : List Detection) (d : Detection)
    (h : (acc.map (fun x => x.name)).Nodup) :
    ((dedupStep acc d).map (fun x => x.name)).Nodup := by
  unfold dedupStep
  cases hf : acc.find? (fun x => x.name == d.name) with
  | none =>
      rw [List.find?_eq_none] at hf
      simp only [List.map_append, List.map_cons, List.map_nil]
      rw [List.nodup_append]
      refine ⟨h, List.nodup_singleton _, ?_⟩
      intro a ha hb
      simp only [List.mem_singleton] at hb
      subst hb
      rcases List.mem_map.mp ha with ⟨x, hx, hxn⟩
      have := hf x hx
      simp only [beq_iff_eq] at this
      exact this hxn
  | some e =>
      by_cases hc : e.confidence < d.confidence
      · simp only [if_pos hc]
        have hmap : (acc.map (fun x => if x.name == d.name then d else x)).map
            (fun x => x.name) = acc.map (fun x => x.name) := by
          rw [List.map_map]
          apply List.map_congr_left
          intro x _
          by_cases hx : x.name = d.name
          · simp [hx]
          · simp [hx]
        rw [hmap]; exact h
      · simp only [if_neg hc]; exact h

/-- The dedup loop never stores two entries under the same name. -/
lemma nodup_names_dedup (m : List Detection) :
    ((dedup m).map (fun x => x.name)).Nodup := by
  unfold dedup
  have : ∀ (m acc : List Detection), (acc.map (fun x => x.name)).Nodup →
      ((m.foldl dedupStep acc).map (fun x => x.name)).Nodup := by
    intro m
    induction m with
    | nil => intro acc h; exact h
    | cons d m ih =>
        intro acc h
        rw [List.foldl_cons]
        exact ih _ (nodup_names_dedupStep acc d h)
  exact this m [] (by simp)

/-- Every entry produced by one dedup iteration is an old entry or the
incoming detection. -/
lemma mem_dedupStep (acc : List Detection) (d x : Detection)
    (h : x ∈ dedupStep acc d) : x ∈ acc ∨ x = d := by
  unfold dedupStep at h
  split at h
  · rcases List.mem_append.mp h with h' | h'
    · exact Or.inl h'
    · simp only [List.mem_singleton] at h'; exact Or.inr h'
  · split at h
    · rcases List.mem_map.mp h with ⟨y, hy, hyx⟩
      by_cases hn : y.name = d.name
      · simp only [hn, beq_self_eq_true, if_true] at hyx
        exact Or.inr hyx.symm
      · have : (y.name == d.name) = false := by simp [hn]
        simp only [this, Bool.false_eq_true, if_false] at hyx
        exact Or.inl (hyx ▸ hy)
    · exact Or.inl h

/-- Every output of the dedup loop is one of its input entries. -/
lemma mem_dedup (m : List Detection) (x : Detection) (h : x ∈ dedup m) :
    x ∈ m := by
  unfold dedup at h
  have : ∀ (m acc : List Detection) (x : Detection), x ∈ m.foldl dedupStep acc →
      x ∈ acc ∨ x ∈ m := by
    intro m
    induction m with
    | nil => intro acc x h; exact Or.inl h
    | cons d m ih =>
        intro acc x h
        rw [List.foldl_cons] at h
        rcases ih _ x h with h' | h'
        · rcases mem_dedupStep acc d x h' with h'' | h''
          · exact Or.inl h''
          · exact Or.inr (h'' ▸ List.mem_cons_self d m)
        · exact Or.inr (List.mem_cons_of_mem d h')
  rcases this m [] x h with h' | h'
  · simp at h'
  · exact h'

/-- One dedup iteration never empties the accumulator. -/
lemma dedupStep_ne_nil (acc : List Detection) (d : Detection) :
    dedupStep acc d ≠ [] := by
  unfold dedupStep
  split
  · simp
  · rename_i e heq
    split
    · intro hcontra
      rw [List.map_eq_nil_iff] at hcontra
      rw [hcontra] at heq
      simp at heq
    · intro hcontra
      rw [hcontra] at heq
      simp at heq

/-- The dedup loop returns the empty list only on empty input. -/
lemma dedup_eq_nil_iff (m : List Detection) : dedup m = [] ↔ m = [] := by
  constructor
  · intro h
    cases m with
    | nil => rfl
    | cons d rest =>
        exfalso
        unfold dedup at h
        rw [List.foldl_cons] at h
        have : ∀ (rest acc : List Detection), acc ≠ [] →
            rest.foldl dedupStep acc ≠ [] := by
          intro rest
          induction rest with
          | nil => intro acc h; exact h
          | cons e rest ih =>
              intro acc _
              rw [List.foldl_cons]
              exact ih _ (dedupStep_ne_nil acc e)
        exact this rest _ (dedupStep_ne_nil [] d) h
  · intro h; subst h; rfl

/-- For a list with pairwise-distinct names, filtering by one name yields
the single entry `find?` locates (or nothing). -/
lemma filter_name_eq_toList_find? (l : List Detection) (n : String)
    (h : (l.map (fun x => x.name)).Nodup) :
    l.filter (fun x => x.name == n) = (l.find? (fun x => x.name == n)).toList := by
  induction l with
  | nil => rfl
  | cons x rest ih =>
      rw [List.map_cons, List.nodup_cons] at h
      by_cases hx : x.name = n
      · rw [List.filter_cons_of_pos (by simp [hx]), List.find?_cons_of_pos _ (by simp [hx])]
        have : rest.filter (fun y => y.name == n) = [] := by
          rw [List.filter_eq_nil_iff]
          intro y hy
          have : y.name ≠ x.name := by
            intro hcontra
            exact h.1 (List.mem_map.mpr ⟨y, hy, hcontra⟩)
          simp [hx ▸ this]
        rw [this]
        rfl
      · rw [List.filter_cons_of_neg (by simp [hx]), List.find?_cons_of_neg _ (by simp [hx])]
        exact ih h.2

/-- When all names are already distinct, the dedup loop is the identity. -/
lemma dedup_eq_self (l : List Detection) (h : (l.map (fun x => x.name)).Nodup) :
    dedup l = l := by
  unfold dedup
  have : ∀ (m acc : List Detection), (((acc ++ m).map (fun x => x.name)).Nodup) →
      m.foldl dedupStep acc = acc ++ m := by
    intro m
    induction m with
    | nil => intro acc _; simp
    | cons d m ih =>
        intro acc hacc
        rw [List.foldl_cons]
        have hstep : dedupStep acc d = acc ++ [d] := by
          unfold dedupStep
          have : acc.find? (fun x => x.name == d.name) = none := by
            rw [List.find?_eq_none]
            intro x hx hcontra
            simp only [List.map_append, List.map_cons] at hacc
            rcases List.nodup_append.mp hacc with ⟨_, hnd, hdisj⟩
            exact hdisj (List.mem_map.mpr ⟨x, hx, rfl⟩)
              (by rw [beq_iff_eq.mp hcontra]; exact List.mem_cons_self _ _)
          rw [this]
        rw [hstep, ih (acc ++ [d]) (by simpa using hacc)]
        simp
  have := this l [] (by simpa using h)
  simpa using this

/-! ## Sorting, rounding and serialization helpers -/

/-- The stable sort of line 159 permutes `final_objects`. -/
lemma sortDesc_perm (l : List Detection) : List.Perm (sortDesc l) l :=
  List.mergeSort_perm l _

/-- The sort of line 159 yields non-increasing confidences. -/
lemma sortDesc_pairwise (l : List Detection) :
    (sortDesc l).Pairwise (fun a b => b.confidence ≤ a.confidence) := by
  have h := @List.sorted_mergeSort Detection (fun a b => decide (b.confidence ≤ a.confidence))
    (fun a b c h1 h2 => by
      simp only [decide_eq_true_eq] at *
      exact le_trans h2 h1)
    (fun a b => by
      simp only [Bool.or_eq_true, decide_eq_true_eq]
      exact le_total _ _) l
  exact h.imp (fun h => by simpa using h)

/-- A list already sorted by descending confidence is left unchanged. -/
lemma sortDesc_of_sorted (l : List Detection)
    (h : l.Pairwise (fun a b => b.confidence ≤ a.confidence)) : sortDesc l = l :=
  List.mergeSort_of_sorted (h.imp fun hab => decide_eq_true hab)

/-- Rounding to 2 decimal places fixes every multiple of one hundredth. -/
lemma roundTo2_hundredths (k : ℤ) : roundTo2 ((k : ℚ) / 100) = (k : ℚ) / 100 := by
  unfold roundTo2
  have h : ((k : ℚ) / 100) * 100 = (k : ℚ) := by
    field_simp
  rw [h, round_intCast]

/-- Membership in the filtered-and-rounded survivor list. -/
lemma mem_filterRound (l : List Detection) (x : Detection) :
    x ∈ filterRound l ↔
      ∃ d, (d ∈ l ∧ threshold < d.confidence) ∧
        (⟨d.name, roundTo2 d.confidence⟩ : Detection) = x := by
  unfold filterRound
  simp [List.mem_map, List.mem_filter]

/-- The survivor list is empty iff the bare threshold filter is empty. -/
lemma filterRound_eq_nil_iff (l : List Detection) :
    filterRound l = [] ↔
      l.filter (fun d => decide (threshold < d.confidence)) = [] := by
  unfold filterRound
  rw [List.map_eq_nil_iff]

/-- `final_objects` is empty iff no detection survives the threshold. -/
lemma rankedLabels_eq_nil_iff (l : List Detection) :
    rankedLabels l = [] ↔
      l.filter (fun d => decide (threshold < d.confidence)) = [] := by
  unfold rankedLabels
  constructor
  · intro h
    have h1 : dedup (filterRound l) = [] := by
      have := sortDesc_perm (dedup (filterRound l))
      rw [h] at this
      exact this.symm.eq_nil
    rw [dedup_eq_nil_iff] at h1
    exact (filterRound_eq_nil_iff l).mp h1
  · intro h
    have h1 : filterRound l = [] := (filterRound_eq_nil_iff l).mpr h
    rw [h1]
    simp [sortDesc, dedup]

/-- Each serialized entry is a nonempty string. -/
lemma labelJson_length_pos (d : Detection) : 0 < (labelJson d).length := by
  unfold labelJson
  simp only [String.length_append]
  have : 0 < ("\x7b\"name\": \"" : String).length := by decide
  omega

/-- Joining a nonempty list of strings keeps at least the first one. -/
lemma joinSep_length_ge (sep : String) (a : String) (t : List String) :
    a.length ≤ (joinSep sep (a :: t)).length := by
  cases t with
  | nil => simp [joinSep]
  | cons b t =>
      show a.length ≤ (a ++ sep ++ joinSep sep (b :: t)).length
      simp only [String.length_append]
      omega

/-- The serialized form of a nonempty ranked list is never `"[]"`. -/
lemma json_dumps_ne_empty_array (x : Detection) (xs : List Detection) :
    json_dumps (x :: xs) ≠ "[]" := by
  intro h
  have hlen := congrArg String.length h
  unfold json_dumps at hlen
  simp only [String.length_append, List.map_cons] at hlen
  have h1 := joinSep_length_ge ", " (labelJson x) (xs.map labelJson)
  have h2 := labelJson_length_pos x
  have h3 : ("[" : String).length = 1 := by decide
  have h4 : ("]" : String).length = 1 := by decide
  have h5 : ("[]" : String).length = 2 := by decide
  omega

/-! ## Claim theorems -/

/-- C1: `detect_objects` groups the threshold survivors by exact name, and
the single entry retained for each name carries that group's highest
confidence as compared after rounding to 2 decimal places (the stored
confidences are the rounded ones); on equal rounded confidences the
first-scanned entry is retained (`specGroupRetained` replaces the held
entry only on a strictly larger confidence). -/
theorem detect_objects_group_retention (l : List Detection) (n : String) :
    (rankedLabels l).filter (fun d => d.name == n) =
      (specGroupRetained ((filterRound l).filter (fun d => d.name == n))).toList := by
  have hperm : List.Perm ((rankedLabels l).filter (fun d => d.name == n))
      ((dedup (filterRound l)).filter (fun d => d.name == n)) := by
    unfold rankedLabels
    exact (sortDesc_perm _).filter _
  have heq : (dedup (filterRound l)).filter (fun d => d.name == n) =
      ((dedup (filterRound l)).find? (fun d => d.name == n)).toList :=
    filter_name_eq_toList_find? _ n (nodup_names_dedup _)
  rw [heq, dedup_find?] at hperm
  cases hspec : specGroupRetained ((filterRound l).filter (fun x => x.name == n)) with
  | none =>
      rw [hspec] at hperm
      simpa using hperm.eq_nil
  | some e =>
      rw [hspec] at hperm
      simpa using List.perm_singleton.mp (by simpa using hperm)

/-- C2: every entry of the output of the pipeline originates from an input
detection whose original (pre-rounding) confidence strictly exceeds 0.5. -/
theorem detect_objects_threshold_filter (l : List Detection) (x : Detection)
    (h : x ∈ rankedLabels l) :
    ∃ d, d ∈ l ∧ threshold < d.confidence ∧ x.name = d.name ∧
      x.confidence = roundTo2 d.confidence := by
  unfold rankedLabels at h
  have h1 : x ∈ dedup (filterRound l) := (sortDesc_perm _).mem_iff.mp h
  have h2 : x ∈ filterRound l := mem_dedup _ _ h1
  rcases (mem_filterRound l x).mp h2 with ⟨d, ⟨hd, hconf⟩, hx⟩
  exact ⟨d, hd, hconf, by rw [← hx], by rw [← hx]⟩

/-- Witness for C2 at the concrete survivor `("cat", 0.91)`. -/
theorem detect_objects_threshold_filter_witness :
    ∃ d, d ∈ [(⟨"cat", 91/100⟩ : Detection)] ∧ threshold < d.confidence ∧
      (⟨"cat", 91/100⟩ : Detection).name = d.name ∧
      (⟨"cat", 91/100⟩ : Detection).confidence = roundTo2 d.confidence :=
  detect_objects_threshold_filter [⟨"cat", 91/100⟩] ⟨"cat", 91/100⟩
    (by norm_num [rankedLabels, filterRound, threshold, dedup, dedupStep, sortDesc,
      roundTo2, round_eq])

/-- C3: the output of the pipeline holds at most one entry per distinct
name (names compared by exact string equality). -/
theorem detect_objects_unique_names (l : List Detection) :
    ((rankedLabels l).map (fun d => d.name)).Nodup := by
  have h := nodup_names_dedup (filterRound l)
  have hp : List.Perm ((dedup (filterRound l)).map (fun x => x.name))
      ((rankedLabels l).map (fun x => x.name)) := by
    unfold rankedLabels
    exact ((sortDesc_perm _).symm.map _)
  exact hp.nodup h

/-- C4: the output confidences are non-increasing in sequence order. -/
theorem detect_objects_sorted_desc (l : List Detection) :
    (rankedLabels l).Pairwise (fun a b => b.confidence ≤ a.confidence) := by
  unfold rankedLabels
  exact sortDesc_pairwise _

/-- C5: on a successful backend call, `detect_objects` returns the `None`
sentinel exactly when no detection survives the 0.5 threshold (the empty
input included), and it never returns the empty-array string `"[]"`. -/
theorem detect_objects_none_iff_no_survivor (analysis : AnalysisResult) :
    (detect_objects true (.ok analysis) = none ↔
      ((rawObjects analysis).map extractDetection).filter
        (fun d => decide (threshold < d.confidence)) = []) ∧
    detect_objects true (.ok analysis) ≠ some "[]" := by
  have hred : detect_objects true (.ok analysis) =
      (if (rankedLabels ((rawObjects analysis).map extractDetection)).isEmpty then none
       else some (json_dumps (rankedLabels ((rawObjects analysis).map extractDetection)))) :=
    rfl
  constructor
  · rw [hred]
    by_cases hE : rankedLabels ((rawObjects analysis).map extractDetection) = []
    · rw [if_pos (by simp [hE])]
      constructor
      · intro _
        exact (rankedLabels_eq_nil_iff _).mp hE
      · intro _
        rfl
    · rw [if_neg (by simp [List.isEmpty_iff, hE])]
      constructor
      · intro hcontra
        cases hcontra
      · intro hfil
        exact absurd ((rankedLabels_eq_nil_iff _).mpr hfil) hE
  · rw [hred]
    by_cases hE : rankedLabels ((rawObjects analysis).map extractDetection) = []
    · rw [if_pos (by simp [hE])]
      simp
    · rw [if_neg (by simp [List.isEmpty_iff, hE])]
      intro hcontra
      rw [Option.some_inj] at hcontra
      rcases List.exists_cons_of_ne_nil hE with ⟨x, xs, hxs⟩
      rw [hxs] at hcontra
      exact json_dumps_ne_empty_array x xs hcontra

/-- Witness for C5 at a concrete analysis result with one clear survivor. -/
theorem detect_objects_none_iff_no_survivor_witness :
    (detect_objects true (.ok ⟨some [⟨some "cat", none, none, none, some (91/100)⟩]⟩) = none ↔
      ((rawObjects ⟨some [⟨some "cat", none, none, none, some (91/100)⟩]⟩).map
        extractDetection).filter (fun d => decide (threshold < d.confidence)) = []) ∧
    detect_objects true (.ok ⟨some [⟨some "cat", none, none, none, some (91/100)⟩]⟩) ≠
      some "[]" :=
  detect_objects_none_iff_no_survivor _

/-- C6, counterexample: `[("cat", 0.5)]` is itself a pipeline output — it is
produced from the raw input `[("cat", 0.504)]`, whose confidence passes the
strict 0.5 threshold and rounds down to 0.5 — and it is deduplicated,
rounded and descending-sorted; yet running the pipeline on it returns `[]`
(0.5 fails the strict threshold), not the same sequence (nor any
reordering of it). -/
theorem rank_pipeline_not_idempotent :
    rankedLabels [⟨"cat", 504/1000⟩] = [⟨"cat", 1/2⟩] ∧
    rankedLabels [⟨"cat", 1/2⟩] = [] := by
  constructor
  · norm_num [rankedLabels, filterRound, threshold, dedup, dedupStep, sortDesc,
      roundTo2, round_eq]
  · norm_num [rankedLabels, filterRound, threshold, dedup, dedupStep, sortDesc,
      roundTo2, round_eq]

/-- C6, amended: the pipeline is idempotent on already-deduplicated,
2-decimal-rounded, descending-sorted sequences whose confidences all
strictly exceed the 0.5 threshold; such a sequence is returned exactly
unchanged. -/
theorem rank_pipeline_idempotent_above_threshold (l : List Detection)
    (hr : ∀ d ∈ l, roundTo2 d.confidence = d.confidence)
    (ht : ∀ d ∈ l, threshold < d.confidence)
    (hn : (l.map (fun d => d.name)).Nodup)
    (hs : l.Pairwise (fun a b => b.confidence ≤ a.confidence)) :
    rankedLabels l = l := by
  unfold rankedLabels
  have h1 : filterRound l = l := by
    unfold filterRound
    rw [List.filter_eq_self.mpr (fun d hd => by simpa using ht d hd)]
    have heach : ∀ d ∈ l,
        (fun d => ({ name := d.name, confidence := roundTo2 d.confidence } : Detection)) d =
          id d := by
      intro d hd
      show ({ name := d.name, confidence := roundTo2 d.confidence } : Detection) = d
      rw [hr d hd]
    rw [List.map_congr_left heach, List.map_id]
  rw [h1, dedup_eq_self l hn, sortDesc_of_sorted l hs]

/-- Witness for the amended C6 at the singleton output `[("cat", 0.91)]`. -/
theorem rank_pipeline_idempotent_above_threshold_witness :
    rankedLabels [⟨"cat", 91/100⟩] = [⟨"cat", 91/100⟩] :=
  rank_pipeline_idempotent_above_threshold [⟨"cat", 91/100⟩]
    (by
      intro d hd
      simp only [List.mem_singleton] at hd
      subst hd
      show roundTo2 (91/100) = 91/100
      unfold roundTo2
      rw [round_eq]
      norm_num)
    (by
      intro d hd
      simp only [List.mem_singleton] at hd
      subst hd
      show threshold < 91/100
      norm_num [threshold])
    (by simp)
    (by simp)

/-- C7: an exception raised while analyzing a single image — modelled as an
`Except.error` outcome of the backend call — is caught at the boundary of
both `detect_objects` and `generate_alternative_text` and converted to the
`None` sentinel; the functions return plain `Option` values, so no
exception propagates to the caller. -/
theorem per_call_failures_to_none (ready : Bool) (e : String) :
    detect_objects ready (.error e) = none ∧
    generate_alternative_text ready (.error e) = none := by
  cases ready <;> exact ⟨rfl, rfl⟩

/-- C8: `get_ml_service` is a lazy singleton: from an uninitialized state
the first call constructs exactly one instance and stores it, and every
call on a state whose handle is already set returns that stored instance
and leaves the state (construction count included) unchanged. -/
theorem get_ml_service_singleton :
    (∀ k, get_ml_service ⟨none, k⟩ = (k, ⟨some k, k + 1⟩)) ∧
    (∀ st inst, st.service = some inst → get_ml_service st = (inst, st)) := by
  constructor
  · intro k
    rfl
  · intro st inst h
    rcases st with ⟨s, k⟩
    cases s with
    | none => cases h
    | some v =>
        simp only [ServiceState.mk.injEq] at h ⊢
        simp at h
        subst h
        rfl

/-- Witness for C8: a second call on an initialized state is the stored
instance with no state change. -/
theorem get_ml_service_singleton_witness :
    get_ml_service ⟨some 0, 1⟩ = (0, ⟨some 0, 1⟩) :=
  get_ml_service_singleton.2 ⟨some 0, 1⟩ 0 rfl

/-- C9: both migration scripts are guarded by a column-existence check:
when the target column already exists they return the schema unchanged
with no ALTER TABLE executed, and hence a second run of either script has
no further effect on the schema. -/
theorem migrations_idempotent :
    (∀ columns, "alt_text" ∈ columns → migrate_alt_text columns = (columns, false)) ∧
    (∀ columns, "detected_objects" ∈ columns →
      migrate_detected_objects columns = (columns, false)) ∧
    (∀ columns, migrate_alt_text (migrate_alt_text columns).1 =
      ((migrate_alt_text columns).1, false)) ∧
    (∀ columns, migrate_detected_objects (migrate_detected_objects columns).1 =
      ((migrate_detected_objects columns).1, false)) := by
  refine ⟨?_, ?_, ?_, ?_⟩
  · intro c h
    simp [migrate_alt_text, h]
  · intro c h
    have hpos : 0 < c.countP (fun x => x == "detected_objects") := by
      rw [List.countP_pos_iff]
      exact ⟨_, h, by simp⟩
    simp [migrate_detected_objects, hpos]
  · intro c
    by_cases h : "alt_text" ∈ c
    · simp [migrate_alt_text, h]
    · simp [migrate_alt_text, h]
  · intro c
    by_cases h : 0 < c.countP (fun x => x == "detected_objects")
    · simp [migrate_detected_objects, h]
    · simp [migrate_detected_objects, h, List.countP_append]

/-- Witness for C9 on concrete schemas that already hold the columns. -/
theorem migrations_idempotent_witness :
    migrate_alt_text ["id", "alt_text"] = (["id", "alt_text"], false) ∧
    migrate_detected_objects ["detected_objects"] = (["detected_objects"], false) :=
  ⟨migrations_idempotent.1 _ (by simp), migrations_idempotent.2.1 _ (by simp)⟩

/-- C10: the attribute probing of `detect_objects` is total over backend
object shapes: with none of the four recognized name attributes the name
falls back to the literal `'unknown'`, and with no confidence attribute
the confidence defaults to 0.0, so that detection never appears in the
output (inserting it anywhere leaves the pipeline result unchanged). -/
theorem extractDetection_total (obj : AzureObject) :
    (obj.object = none → obj.object_property = none → obj.name = none →
      obj.label = none → (extractDetection obj).name = "unknown") ∧
    (obj.confidence = none → (extractDetection obj).confidence = 0 ∧
      ∀ pre post : List AzureObject,
        rankedLabels ((pre ++ obj :: post).map extractDetection) =
          rankedLabels ((pre ++ post).map extractDetection)) := by
  rcases obj with ⟨o, op, nm, lb, c⟩
  constructor
  · intro h1 h2 h3 h4
    simp only at h1 h2 h3 h4
    subst h1; subst h2; subst h3; subst h4
    cases c <;> rfl
  · intro hc
    simp only at hc
    subst hc
    have hext : (extractDetection ⟨o, op, nm, lb, none⟩).confidence = 0 := by
      cases o <;> cases op <;> rfl
    refine ⟨hext, ?_⟩
    intro pre post
    unfold rankedLabels filterRound
    have hfil : ((pre ++ ⟨o, op, nm, lb, none⟩ :: post).map extractDetection).filter
        (fun d => decide (threshold < d.confidence)) =
        ((pre ++ post).map extractDetection).filter
          (fun d => decide (threshold < d.confidence)) := by
      simp only [List.map_append, List.map_cons, List.filter_append, List.filter_cons]
      rw [show decide (threshold < (extractDetection ⟨o, op, nm, lb, none⟩).confidence)
          = false by simp [hext, threshold]]
      simp
    rw [hfil]

/-- Witness for C10 at the fully attribute-less backend object. -/
theorem extractDetection_total_witness :
    (extractDetection ⟨none, none, none, none, none⟩).name = "unknown" ∧
    (extractDetection ⟨none, none, none, none, none⟩).confidence = 0 ∧
    rankedLabels (([⟨none, none, none, none, none⟩] : List AzureObject).map extractDetection) =
      rankedLabels (([] : List AzureObject).map extractDetection) := by
  refine ⟨(extractDetection_total _).1 rfl rfl rfl rfl,
    ((extractDetection_total _).2 rfl).1, ?_⟩
  have h := ((extractDetection_total ⟨none, none, none, none, none⟩).2 rfl).2 [] []
  simpa using h

end Moments
